import Mathlib

/-!
Shallow embedding of `src/main.rs` (P9813 LED strip driver).

Rust `f64` values are modelled as rationals (`ℚ`); the only `f64`
operation with no rational counterpart, `powf`, is passed in as an
oracle function where it occurs (`GammaTable::new`).  Rust's
float-to-`u8` cast (`as u8`), which truncates toward zero and
saturates to `0..=255`, is modelled by `satCastU8`.  Machine `u8`
values are modelled as `ℕ` (all the bit operations involved stay
below 256, so no wraparound arises).  Timestamps are modelled as
`ℤ` seconds.
-/

namespace LedStrip

/-- Model of Rust's `as u8` cast applied to a float: truncate toward
zero, then saturate into `0..=255` (a negative float casts to `0`). -/
def satCastU8 (q : ℚ) : ℕ :=
  if q < 0 then 0 else min 255 (Int.toNat ⌊q⌋)

/-- The `#[repr(C)] struct Color { flag, blue, green, red }` record, in
declaration (= memory) order. -/
structure Color where
  flag : ℕ
  blue : ℕ
  green : ℕ
  red : ℕ
deriving Repr, DecidableEq

/-- Model of `Color::new`: pack the top two bits of each channel into the low six
bits of `flag`, then bitwise-complement (`!flag` on `u8` is `^^^ 0xFF`). -/
def Color.new (red green blue : ℕ) : Color :=
  let f1 := (red &&& 0xC0) >>> 6
  let f2 := f1 ||| ((green &&& 0xC0) >>> 4)
  let f3 := f2 ||| ((blue &&& 0xC0) >>> 2)
  { flag := f3 ^^^ 0xFF, blue := blue, green := green, red := red }

/-- The all-zero `Color` literal pushed as bus padding in `hue_to_pixels`. -/
def zeroColor : Color :=
  { flag := 0, blue := 0, green := 0, red := 0 }

/-- The four bytes of one `Color` record in memory order, as read off by
the `from_raw_parts` cast in `send_pixels`. -/
def Color.bytes (c : Color) : List ℕ :=
  [c.flag, c.blue, c.green, c.red]

/-- The flat byte buffer `send_pixels` writes to the bus: the records'
bytes, concatenated in order with no padding. -/
def pixelBytes (pixels : List Color) : List ℕ :=
  (pixels.map Color.bytes).flatten

/-- Model of `struct GammaTable`: three per-channel lookup tables (modelled as
functions on the `0..256` index range). -/
structure GammaTable where
  red_table : ℕ → ℕ
  green_table : ℕ → ℕ
  blue_table : ℕ → ℕ

/-- Model of `GammaTable::new(red, green, blue)`.  The Rust code computes
`(((i as f64 / 255).powf(exp)) * 255.0 + 0.5) as u8` for each entry;
`powf` with the `red` / `green` / `blue` exponent is passed in as the
oracle `powfRed` / `powfGreen` / `powfBlue`.  Note the source applies
`powfBlue` to the green table and `powfGreen` to the blue table. -/
def GammaTable.new (powfRed powfGreen powfBlue : ℚ → ℚ) : GammaTable where
  red_table := fun i => satCastU8 (powfRed ((i : ℚ) / 255) * 255 + 0.5)
  green_table := fun i => satCastU8 (powfBlue ((i : ℚ) / 255) * 255 + 0.5)
  blue_table := fun i => satCastU8 (powfGreen ((i : ℚ) / 255) * 255 + 0.5)

/-- Model of `GammaTable::correct_color`: look each raw channel up in its table
and build the `Color` record. -/
def GammaTable.correct_color (gt : GammaTable) (red green blue : ℕ) : Color :=
  Color.new (gt.red_table red) (gt.green_table green) (gt.blue_table blue)

/-- Model of `hsv_to_rgb(hue, saturation, value)`.  The sector byte is the Rust
cast `i as u8` of the floored `hue / 60`, modelled by `satCastU8`. -/
def hsv_to_rgb (hue saturation value : ℚ) : ℚ × ℚ × ℚ :=
  if saturation < 1 / 1000000 then (value, value, value)
  else
    let h := hue / 60
    let i : ℚ := (⌊h⌋ : ℚ)
    let frac := h - i
    let p := value * (1 - saturation)
    let q := value * (1 - saturation * frac)
    let t := value * (1 - saturation * (1 - frac))
    match satCastU8 i with
    | 0 => (value, t, p)
    | 1 => (q, value, p)
    | 2 => (p, value, t)
    | 3 => (p, q, value)
    | 4 => (t, p, value)
    | _ => (value, p, q)

/-- The closure mapped over the hue slice in `hue_to_pixels`: convert
the hue at full saturation and value, scale each channel by the dimming
factor `gamma`, cast to `u8`, and gamma-correct. -/
def huePixel (gt : GammaTable) (gamma : ℚ) (h : ℚ) : Color :=
  let c := hsv_to_rgb h 1 1
  gt.correct_color (satCastU8 (c.1 * gamma)) (satCastU8 (c.2.1 * gamma))
    (satCastU8 (c.2.2 * gamma))

/-- Model of `hue_to_pixels`: map every hue to a corrected pixel, insert one
all-zero record at the front and push two at the back. -/
def hue_to_pixels (hue : List ℚ) (gt : GammaTable) (gamma : ℚ) : List Color :=
  zeroColor :: (hue.map (huePixel gt gamma) ++ [zeroColor, zeroColor])

/-- The dimming computation inlined in `main` (`gamma` there): `0`
strictly inside `(sunrise, sunset)`, a 2-hour ramp formula before
sunrise, a 3-hour ramp formula after sunset, `255` otherwise.
Timestamps are `ℤ` epoch seconds (`Duration::num_seconds` is exact on
whole-second instants). -/
def compute_dimming (now sunrise sunset : ℤ) : ℚ :=
  if sunrise < now ∧ now < sunset then 0
  else if now < sunrise then
    255 - ((sunrise - now : ℤ) : ℚ) * 255 / 7200
  else if sunset < now then
    255 - ((now - sunset : ℤ) : ℚ) * 255 / 10800
  else 255

/-- The per-tick hue update in `main`: `*v += 0.20; if *v >= 360.0 { *v = 0.0 }`. -/
def hueStep (v : ℚ) : ℚ :=
  let v1 := v + 0.20
  if 360 ≤ v1 then 0 else v1

/-- One tick's in-place update of the whole hue array. -/
def tickHues (h : List ℚ) : List ℚ :=
  h.map hueStep

/-- The initial hue assignment in `main`: `hue[i] = (i as f64 * 360.0) / NUM_LEDS as f64`
with `NUM_LEDS = 76`. -/
def initHue (i : ℕ) : ℚ :=
  (i : ℚ) * 360 / 76

/-- The `while running.load()` loop of `main`, driven by the list of
values the shutdown flag is observed to have at the top of successive
ticks (the loop body runs only while the observation is `true`).  The
per-tick dimming factor is supplied by the oracle `dims` (it depends on
the wall clock and the solar calculator, both external).  Returns the
frames transmitted inside the loop and the hue state at loop exit.
Tick body order mirrors the source: compute dimming, update hues,
assemble, transmit. -/
def mainLoop (gt : GammaTable) (dims : ℕ → ℚ) :
    List Bool → List ℚ → ℕ → List (List Color) × List ℚ
  | [], h, _ => ([], h)
  | b :: rest, h, t =>
    if b then
      let h1 := tickHues h
      let frame := hue_to_pixels h1 gt (dims t)
      let res := mainLoop gt dims rest h1 (t + 1)
      (frame :: res.1, res.2)
    else ([], h)

/-- The transmissions `main` performs: the loop's frames, then the one
final frame assembled after the loop with the dimming factor `0.0`. -/
def mainProgram (gt : GammaTable) (dims : ℕ → ℚ) (flags : List Bool)
    (h : List ℚ) : List (List Color) :=
  let res := mainLoop gt dims flags h 0
  res.1 ++ [hue_to_pixels res.2 gt 0]

/-! ### Helper lemmas -/

set_option maxRecDepth 8192

theorem land_c0_shr6 : ∀ r, r < 256 → (r &&& 0xC0) >>> 6 = r / 64 := by decide

theorem land_c0_shr4 : ∀ g, g < 256 → (g &&& 0xC0) >>> 4 = (g / 64) <<< 2 := by
  decide

theorem land_c0_shr2 : ∀ b, b < 256 → (b &&& 0xC0) >>> 2 = (b / 64) <<< 4 := by
  decide

theorem shr6_land3 : ∀ r, r < 256 → (r >>> 6) &&& 3 = r / 64 := by decide

theorem flag_form : ∀ a, a < 4 → ∀ b, b < 4 → ∀ c, c < 4 →
    (((a ||| (b <<< 2)) ||| (c <<< 4)) ^^^ 0xFF
        = 0xC0 ||| ((((a ||| (b <<< 2)) ||| (c <<< 4)) ^^^ 0xFF) &&& 0x3F))
      ∧ ((((a ||| (b <<< 2)) ||| (c <<< 4)) ^^^ 0xFF) &&& 0xC0 = 0xC0) := by
  decide

/-! ### Claim theorems -/

/-- C1.  For 8-bit channel values, the flag byte of `Color::new red green blue`
equals `0xC0 ||| ((~packed) &&& 0x3F)` where
`packed = ((red>>6)&3) ||| (((green>>6)&3)<<2) ||| (((blue>>6)&3)<<4)` and `~`
is the 8-bit complement; its upper two bits are always set, and its low six
bits are the complement of `packed`. -/
theorem color_new_flag (r g b : ℕ) (hr : r < 256) (hg : g < 256) (hb : b < 256) :
    (Color.new r g b).flag
        = 0xC0 |||
          ((((((r >>> 6) &&& 3) ||| (((g >>> 6) &&& 3) <<< 2)) |||
                (((b >>> 6) &&& 3) <<< 4)) ^^^ 0xFF) &&& 0x3F)
      ∧ (Color.new r g b).flag &&& 0xC0 = 0xC0
      ∧ (Color.new r g b).flag &&& 0x3F
          = (((((r >>> 6) &&& 3) ||| (((g >>> 6) &&& 3) <<< 2)) |||
                (((b >>> 6) &&& 3) <<< 4)) ^^^ 0xFF) &&& 0x3F := by
  have e1 := land_c0_shr6 r hr
  have e2 := land_c0_shr4 g hg
  have e3 := land_c0_shr2 b hb
  have f1 := shr6_land3 r hr
  have f2 := shr6_land3 g hg
  have f3 := shr6_land3 b hb
  simp only [Color.new, e1, e2, e3, f1, f2, f3]
  have hmain := flag_form (r / 64) (by omega) (g / 64) (by omega) (b / 64) (by omega)
  exact ⟨hmain.1, hmain.2, trivial⟩

/-- C1 witness: the theorem instantiated at `(red, green, blue) = (0x40, 0x80, 0xFF)`. -/
theorem color_new_flag_witness :
    (Color.new 0x40 0x80 0xFF).flag
        = 0xC0 |||
          (((((0x40 >>> 6) &&& 3) ||| (((0x80 >>> 6) &&& 3) <<< 2)) |||
                (((0xFF >>> 6) &&& 3) <<< 4)) ^^^ 0xFF) &&& 0x3F :=
  (color_new_flag 0x40 0x80 0xFF (by decide) (by decide) (by decide)).1

theorem pixelBytes_length (ps : List Color) : (pixelBytes ps).length = 4 * ps.length := by
  induction ps with
  | nil => rfl
  | cons c t ih =>
    simp only [pixelBytes, List.map_cons, List.flatten_cons, List.length_append,
      List.length_cons, Color.bytes, List.length_nil] at *
    omega

/-- C2.  The assembled frame buffer is one leading all-zero 4-byte record,
then the `N` pixel records in strip order, then two trailing all-zero 4-byte
records, and its total length is `4*(N+3)` bytes. -/
theorem hue_to_pixels_frame (hues : List ℚ) (gt : GammaTable) (gamma : ℚ) :
    pixelBytes (hue_to_pixels hues gt gamma)
        = ([0, 0, 0, 0] : List ℕ)
            ++ ((hues.map (huePixel gt gamma)).map Color.bytes).flatten
            ++ [0, 0, 0, 0, 0, 0, 0, 0]
      ∧ (pixelBytes (hue_to_pixels hues gt gamma)).length
          = 4 * (hues.length + 3) := by
  constructor
  · simp [pixelBytes, hue_to_pixels, Color.bytes, zeroColor]
  · rw [pixelBytes_length]
    simp only [hue_to_pixels, List.length_cons, List.length_append,
      List.length_map, List.length_nil]

theorem satCastU8_round (p : ℚ) (h0 : 0 ≤ p) (h1 : p ≤ 1) :
    satCastU8 (p * 255 + 0.5) = (min 255 (max 0 (round (255 * p)))).toNat := by
  have hq0 : (0 : ℚ) ≤ p * 255 + 0.5 := by linarith
  have hq1 : p * 255 + 0.5 < 256 := by linarith
  have hfl : ⌊p * 255 + 0.5⌋ = round (255 * p) := by
    rw [round_eq]
    congr 1
    ring_nf
  have h2 : 0 ≤ round (255 * p) := by
    rw [← hfl]
    exact Int.floor_nonneg.mpr hq0
  have h3 : round (255 * p) < 256 := by
    rw [← hfl]
    exact Int.floor_lt.mpr (by exact_mod_cast hq1)
  rw [satCastU8, if_neg (not_lt.mpr hq0), hfl]
  omega

/-- C3.  For every table index `i`, whenever the `powf` oracle output lies in
`[0, 1]`, the red table entry of `GammaTable::new` equals
`round(255 * (i/255)^red)` clamped to `0..255`; the green table is built from
the blue exponent's oracle and the blue table from the green exponent's
oracle (the swap is preserved), with the same round-and-clamp form. -/
theorem gammaTable_new_entries (pr pg pb : ℚ → ℚ) (i : ℕ) :
    (0 ≤ pr ((i : ℚ) / 255) → pr ((i : ℚ) / 255) ≤ 1 →
        (GammaTable.new pr pg pb).red_table i
          = (min 255 (max 0 (round (255 * pr ((i : ℚ) / 255))))).toNat)
    ∧ (0 ≤ pb ((i : ℚ) / 255) → pb ((i : ℚ) / 255) ≤ 1 →
        (GammaTable.new pr pg pb).green_table i
          = (min 255 (max 0 (round (255 * pb ((i : ℚ) / 255))))).toNat)
    ∧ (0 ≤ pg ((i : ℚ) / 255) → pg ((i : ℚ) / 255) ≤ 1 →
        (GammaTable.new pr pg pb).blue_table i
          = (min 255 (max 0 (round (255 * pg ((i : ℚ) / 255))))).toNat) :=
  ⟨fun h0 h1 => satCastU8_round _ h0 h1,
   fun h0 h1 => satCastU8_round _ h0 h1,
   fun h0 h1 => satCastU8_round _ h0 h1⟩

/-- C3 witness: the red-table conjunct with the squaring oracle at index 128. -/
theorem gammaTable_new_entries_witness :
    (GammaTable.new (fun q => q * q) (fun q => q * q) (fun q => q * q)).red_table 128
      = (min 255 (max 0 (round (255 * (((128 : ℚ) / 255) * ((128 : ℚ) / 255)))))).toNat :=
  (gammaTable_new_entries (fun q => q * q) (fun q => q * q) (fun q => q * q) 128).1
    (by positivity) (by norm_num)

/-- The spec's description of `hsv_to_rgb` (§4.2): achromatic short-circuit
below the saturation epsilon, otherwise the canonical HSV hexagon mapping with
sector index `⌊hue/60⌋` and `f` the fractional part of `hue/60`. -/
def hsvSpec (hue s v : ℚ) : ℚ × ℚ × ℚ :=
  if s < 1 / 1000000 then (v, v, v)
  else
    let sector : ℤ := ⌊hue / 60⌋
    let f := hue / 60 - (⌊hue / 60⌋ : ℚ)
    let p := v * (1 - s)
    let q := v * (1 - s * f)
    let t := v * (1 - s * (1 - f))
    if sector = 0 then (v, t, p)
    else if sector = 1 then (q, v, p)
    else if sector = 2 then (p, v, t)
    else if sector = 3 then (p, q, v)
    else if sector = 4 then (t, p, v)
    else (v, p, q)

/-- C4.  For hue in `[0, 360)` and saturation, value in `[0, 1]`,
`hsv_to_rgb` returns `(v, v, v)` when `s < 1e-6`, and otherwise the canonical
sector triple `(v,t,p) / (q,v,p) / (p,v,t) / (p,q,v) / (t,p,v) / (v,p,q)` for
sectors `0..5`, with `p`, `q`, `t` built from the fractional part of
`hue/60`. -/
theorem hsv_to_rgb_canonical (h s v : ℚ) (hh0 : 0 ≤ h) (hh1 : h < 360)
    (hs0 : 0 ≤ s) (hs1 : s ≤ 1) (hv0 : 0 ≤ v) (hv1 : v ≤ 1) :
    hsv_to_rgb h s v = hsvSpec h s v := by
  unfold hsv_to_rgb hsvSpec
  by_cases heps : s < 1 / 1000000
  · simp only [if_pos heps]
  · simp only [if_neg heps]
    have hdiv : h / 60 < 6 := by
      rw [div_lt_iff₀ (by norm_num : (0 : ℚ) < 60)]
      linarith
    have hk0 : 0 ≤ ⌊h / 60⌋ := Int.floor_nonneg.mpr (by positivity)
    have hk6 : ⌊h / 60⌋ < 6 := Int.floor_lt.mpr (by exact_mod_cast hdiv)
    set k := ⌊h / 60⌋ with hk
    interval_cases k <;> rfl

/-- C4 witness: the characterization instantiated at `(h, s, v) = (90, 1, 1)`. -/
theorem hsv_to_rgb_canonical_witness :
    hsv_to_rgb 90 1 1 = hsvSpec 90 1 1 :=
  hsv_to_rgb_canonical 90 1 1 (by norm_num) (by norm_num) (by norm_num)
    (by norm_num) (by norm_num) (by norm_num)

/-- C5 counterexample: at `now = 0`, `sunrise = 7201`, `sunset = 50000` the
instant `now` is more than 2 hours before sunrise, yet the dimming value is
not `255` (it is `255 - 7201*255/7200 < 0`). -/
theorem compute_dimming_255_counterexample :
    ((7201 : ℤ) - 0 > 7200) ∧ compute_dimming 0 7201 50000 ≠ 255 := by
  constructor
  · decide
  · rw [compute_dimming, if_neg (by omega), if_pos (by omega)]
    norm_num

/-- C5 (amended).  The dimming computation returns exactly `0` whenever `now`
is strictly between sunrise and sunset; when `now` is more than 2 hours before
sunrise it returns the unclamped ramp value `255 - (sunrise-now)*255/7200`,
which is strictly negative (not `255`); when `now` is more than 3 hours after
sunset (with `sunrise ≤ sunset`) it returns `255 - (now-sunset)*255/10800`,
also strictly negative. -/
theorem compute_dimming_cases (now sunrise sunset : ℤ) :
    (sunrise < now → now < sunset → compute_dimming now sunrise sunset = 0)
    ∧ (sunrise - now > 7200 →
        compute_dimming now sunrise sunset
            = 255 - ((sunrise - now : ℤ) : ℚ) * 255 / 7200
          ∧ compute_dimming now sunrise sunset < 0)
    ∧ (sunrise ≤ sunset → now - sunset > 10800 →
        compute_dimming now sunrise sunset
            = 255 - ((now - sunset : ℤ) : ℚ) * 255 / 10800
          ∧ compute_dimming now sunrise sunset < 0) := by
  refine ⟨?_, ?_, ?_⟩
  · intro h1 h2
    rw [compute_dimming, if_pos ⟨h1, h2⟩]
  · intro hgt
    rw [compute_dimming, if_neg (by omega), if_pos (by omega)]
    refine ⟨rfl, ?_⟩
    have hc : (7200 : ℚ) < ((sunrise - now : ℤ) : ℚ) := by exact_mod_cast hgt
    linarith
  · intro hle hgt
    rw [compute_dimming, if_neg (by omega), if_neg (by omega), if_pos (by omega)]
    refine ⟨rfl, ?_⟩
    have hc : (10800 : ℚ) < ((now - sunset : ℤ) : ℚ) := by exact_mod_cast hgt
    linarith

/-- C5 witness: the three amended cases at concrete instants. -/
theorem compute_dimming_cases_witness :
    compute_dimming 100 0 200 = 0
    ∧ compute_dimming 0 7201 50000 < 0
    ∧ compute_dimming 60801 0 50000 < 0 :=
  ⟨(compute_dimming_cases 100 0 200).1 (by decide) (by decide),
   ((compute_dimming_cases 0 7201 50000).2.1 (by decide)).2,
   ((compute_dimming_cases 60801 0 50000).2.2 (by decide) (by decide)).2⟩

/-- C7 counterexample: at the in-range hue `v = 359.9` the update resets to
`0`, while `(v + 0.20) mod 360 = 0.1`. -/
theorem hueStep_mod_counterexample :
    ((0 : ℚ) ≤ 3599 / 10 ∧ (3599 / 10 : ℚ) < 360)
    ∧ hueStep (3599 / 10)
        ≠ (3599 / 10 + 0.20 : ℚ) - 360 * ⌊((3599 / 10 : ℚ) + 0.20) / 360⌋ := by
  refine ⟨⟨by norm_num, by norm_num⟩, ?_⟩
  have hfl : ⌊((3599 / 10 : ℚ) + 0.20) / 360⌋ = 1 := by
    rw [Int.floor_eq_iff]
    norm_num
  rw [hfl]
  have hstep : hueStep (3599 / 10) = 0 := by
    rw [hueStep]
    norm_num
  rw [hstep]
  norm_num

/-- C7 (amended).  Each tick every hue value is advanced in place by the fixed
increment `0.20`; the new value equals `(v + 0.20) mod 360` whenever
`v + 0.20 ≤ 360`, but when `v + 0.20` overshoots `360` the code resets the
value to `0` instead of wrapping modulo 360. -/
theorem hueStep_wrap (v : ℚ) (h0 : 0 ≤ v) (h1 : v + 0.20 ≤ 360) :
    hueStep v = (v + 0.20) - 360 * ⌊(v + 0.20) / 360⌋ := by
  rw [hueStep]
  by_cases hc : (360 : ℚ) ≤ v + 0.20
  · have hv : v + 0.20 = 360 := le_antisymm h1 hc
    rw [if_pos hc, hv]
    norm_num
  · rw [if_neg hc]
    have hfl : ⌊(v + 0.20) / 360⌋ = 0 := by
      rw [Int.floor_eq_zero_iff]
      constructor
      · positivity
      · rw [div_lt_one (by norm_num : (0 : ℚ) < 360)]
        linarith
    rw [hfl]
    norm_num

/-- C7 witness: the amended equation at `v = 100`. -/
theorem hueStep_wrap_witness :
    hueStep 100 = ((100 : ℚ) + 0.20) - 360 * ⌊((100 : ℚ) + 0.20) / 360⌋ :=
  hueStep_wrap 100 (by norm_num) (by norm_num)

/-- The initial hue list of `main` (`NUM_LEDS = 76`). -/
def initHues : List ℚ :=
  (List.range 76).map initHue

/-- C8.  If every hue value lies in `[0, 360)` then after one tick's update
every value still lies in `[0, 360)`, and every value of the initial
assignment `i * 360 / 76` lies in `[0, 360)`; hence the invariant holds for
all reachable hue states. -/
theorem hue_range_invariant :
    (∀ hs : List ℚ, (∀ x ∈ hs, 0 ≤ x ∧ x < 360) →
        ∀ x ∈ tickHues hs, 0 ≤ x ∧ x < 360)
    ∧ (∀ x ∈ initHues, 0 ≤ x ∧ x < 360) := by
  constructor
  · intro hs hin x hx
    rw [tickHues, List.mem_map] at hx
    obtain ⟨y, hy, rfl⟩ := hx
    obtain ⟨hy0, hy1⟩ := hin y hy
    rw [hueStep]
    by_cases hc : (360 : ℚ) ≤ y + 0.20
    · rw [if_pos hc]
      norm_num
    · rw [if_neg hc]
      push_neg at hc
      constructor
      · linarith
      · linarith
  · intro x hx
    rw [initHues, List.mem_map] at hx
    obtain ⟨i, hi, rfl⟩ := hx
    rw [List.mem_range] at hi
    constructor
    · rw [initHue]
      positivity
    · rw [initHue]
      rw [div_lt_iff₀ (by norm_num : (0 : ℚ) < 76)]
      have hic : (i : ℚ) ≤ 75 := by exact_mod_cast Nat.lt_succ_iff.mp hi
      linarith

/-- C8 witness: the update part at the singleton state `[100]` and the initial
part at its head element. -/
theorem hue_range_invariant_witness :
    (0 ≤ hueStep 100 ∧ hueStep 100 < 360)
    ∧ (0 ≤ initHue 0 ∧ initHue 0 < 360) :=
  ⟨hue_range_invariant.1 [100]
      (by intro x hx; rw [List.mem_singleton] at hx; subst hx; norm_num)
      (hueStep 100) (by rw [tickHues]; exact List.mem_map_of_mem hueStep (List.mem_singleton.mpr rfl)),
   hue_range_invariant.2 (initHue 0)
      (by rw [initHues]; exact List.mem_map_of_mem initHue (List.mem_range.mpr (by norm_num)))⟩

theorem satCastU8_eq_clamp (q : ℚ) :
    satCastU8 q = (min 255 (max 0 ⌊q⌋)).toNat := by
  rw [satCastU8]
  by_cases hq : q < 0
  · rw [if_pos hq]
    have hfl : ⌊q⌋ < 0 := Int.floor_lt.mpr (by exact_mod_cast hq)
    omega
  · rw [if_neg hq]
    have hfl : 0 ≤ ⌊q⌋ := Int.floor_nonneg.mpr (le_of_not_lt hq)
    omega

theorem satCastU8_nonpos (q : ℚ) (h : q ≤ 0) : satCastU8 q = 0 := by
  rw [satCastU8_eq_clamp]
  have hfl : ⌊q⌋ ≤ 0 := by
    have := Int.floor_le_floor h
    simpa using this
  omega

theorem hsv_one_one_nonneg (h : ℚ) :
    0 ≤ (hsv_to_rgb h 1 1).1 ∧ 0 ≤ (hsv_to_rgb h 1 1).2.1
      ∧ 0 ≤ (hsv_to_rgb h 1 1).2.2 := by
  rw [hsv_to_rgb]
  simp only [if_neg (show ¬((1 : ℚ) < 1 / 1000000) by norm_num)]
  have hf0 : 0 ≤ h / 60 - (⌊h / 60⌋ : ℚ) := by
    have := Int.floor_le (h / 60)
    linarith
  have hf1 : h / 60 - (⌊h / 60⌋ : ℚ) < 1 := by
    have := Int.lt_floor_add_one (h / 60)
    linarith
  generalize satCastU8 ((⌊h / 60⌋ : ℚ)) = m
  rcases m with _ | _ | _ | _ | _ | m
  · exact ⟨by nlinarith, by nlinarith, by nlinarith⟩
  · exact ⟨by nlinarith, by nlinarith, by nlinarith⟩
  · exact ⟨by nlinarith, by nlinarith, by nlinarith⟩
  · exact ⟨by nlinarith, by nlinarith, by nlinarith⟩
  · exact ⟨by nlinarith, by nlinarith, by nlinarith⟩
  · show (0 : ℚ) ≤ 1 ∧ (0 : ℚ) ≤ 1 * (1 - 1)
        ∧ (0 : ℚ) ≤ 1 * (1 - 1 * (h / 60 - (⌊h / 60⌋ : ℚ)))
    exact ⟨by norm_num, by norm_num, by nlinarith⟩

/-- C6.  The dimming factor is clamped at the point of use: the 8-bit value
fed into each gamma lookup by the closure in `hue_to_pixels` equals the
channel value times the factor, truncated and clamped into `0..255`; in
particular a negative factor yields channel value `0` for every channel. -/
theorem huePixel_clamps_dimming (gt : GammaTable) (gamma h : ℚ) :
    huePixel gt gamma h
        = gt.correct_color
            ((min 255 (max 0 ⌊(hsv_to_rgb h 1 1).1 * gamma⌋)).toNat)
            ((min 255 (max 0 ⌊(hsv_to_rgb h 1 1).2.1 * gamma⌋)).toNat)
            ((min 255 (max 0 ⌊(hsv_to_rgb h 1 1).2.2 * gamma⌋)).toNat)
      ∧ (gamma < 0 → huePixel gt gamma h = gt.correct_color 0 0 0) := by
  constructor
  · rw [huePixel]
    rw [satCastU8_eq_clamp, satCastU8_eq_clamp, satCastU8_eq_clamp]
  · intro hneg
    obtain ⟨h1, h2, h3⟩ := hsv_one_one_nonneg h
    rw [huePixel]
    rw [satCastU8_nonpos _ (mul_nonpos_of_nonneg_of_nonpos h1 hneg.le),
      satCastU8_nonpos _ (mul_nonpos_of_nonneg_of_nonpos h2 hneg.le),
      satCastU8_nonpos _ (mul_nonpos_of_nonneg_of_nonpos h3 hneg.le)]

/-- C6 witness: a negative factor at hue `90` sends `0` into every gamma
lookup. -/
theorem huePixel_clamps_dimming_witness :
    huePixel (GammaTable.new (fun q => q) (fun q => q) (fun q => q)) (-1) 90
      = (GammaTable.new (fun q => q) (fun q => q) (fun q => q)).correct_color 0 0 0 :=
  (huePixel_clamps_dimming (GammaTable.new (fun q => q) (fun q => q) (fun q => q))
      (-1) 90).2 (by norm_num)

/-- C9 counterexample: at `h = 30`, `s = v = 1`, shifting the hue by 360 does
not reproduce the colour: `hsv_to_rgb 390 1 1 = (1, 0, 1/2)` (the `as u8`
sector byte is `6`, hitting the default match arm) while
`hsv_to_rgb 30 1 1 = (1, 1/2, 0)`. -/
theorem hsv_to_rgb_periodic_counterexample :
    hsv_to_rgb (30 + 360) 1 1 ≠ hsv_to_rgb 30 1 1 := by
  have e1 : hsv_to_rgb (30 + 360) 1 1 = (1, 0, 1 / 2) := by
    norm_num [hsv_to_rgb, satCastU8]
    rfl
  have e2 : hsv_to_rgb 30 1 1 = (1, 1 / 2, 0) := by
    norm_num [hsv_to_rgb, satCastU8]
  rw [e1, e2]
  norm_num [Prod.ext_iff]

/-- C9 (amended).  The function `hsv_to_rgb` is not periodic in hue with period 360 in
general: for `h + 360` the sector byte lands in the default match arm.  The
equality `hsv_to_rgb (h+360) s v = hsv_to_rgb h s v` does hold for hues in the
last sector, `h ∈ [300, 360)`, where both sector bytes (5 and 11) select the
default triple, and trivially in the achromatic branch. -/
theorem hsv_to_rgb_periodic_high_sector (h s v : ℚ) (h0 : 300 ≤ h) (h1 : h < 360) :
    hsv_to_rgb (h + 360) s v = hsv_to_rgb h s v := by
  rw [hsv_to_rgb, hsv_to_rgb]
  by_cases heps : s < 1 / 1000000
  · simp only [if_pos heps]
  · simp only [if_neg heps]
    have hf5 : ⌊h / 60⌋ = 5 := by
      rw [Int.floor_eq_iff]
      constructor
      · push_cast
        rw [le_div_iff₀ (by norm_num : (0 : ℚ) < 60)]
        linarith
      · push_cast
        rw [div_lt_iff₀ (by norm_num : (0 : ℚ) < 60)]
        linarith
    have hf11 : ⌊(h + 360) / 60⌋ = 11 := by
      rw [Int.floor_eq_iff]
      constructor
      · push_cast
        rw [le_div_iff₀ (by norm_num : (0 : ℚ) < 60)]
        linarith
      · push_cast
        rw [div_lt_iff₀ (by norm_num : (0 : ℚ) < 60)]
        linarith
    rw [hf5, hf11]
    have hfrac : (h + 360) / 60 - ((11 : ℤ) : ℚ) = h / 60 - ((5 : ℤ) : ℚ) := by
      push_cast
      ring
    rw [hfrac]
    have h5 : satCastU8 ((5 : ℤ) : ℚ) = 5 := by
      norm_num [satCastU8]
      rfl
    have h11 : satCastU8 ((11 : ℤ) : ℚ) = 11 := by
      norm_num [satCastU8]
      rfl
    rw [h5, h11]

/-- C9 witness: the amended periodicity at `h = 330`, `s = v = 1`. -/
theorem hsv_to_rgb_periodic_high_sector_witness :
    hsv_to_rgb (330 + 360) 1 1 = hsv_to_rgb 330 1 1 :=
  hsv_to_rgb_periodic_high_sector 330 1 1 (by norm_num) (by norm_num)

theorem mainLoop_replicate (gt : GammaTable) (dims : ℕ → ℚ) :
    ∀ (k : ℕ) (rest : List Bool) (h : List ℚ) (t0 : ℕ),
      mainLoop gt dims (List.replicate k true ++ false :: rest) h t0
        = ((List.range k).map
             (fun j => hue_to_pixels (tickHues^[j + 1] h) gt (dims (t0 + j))),
           tickHues^[k] h) := by
  intro k
  induction k with
  | zero =>
    intro rest h t0
    simp [mainLoop]
  | succ n ih =>
    intro rest h t0
    rw [List.replicate_succ, List.cons_append]
    rw [mainLoop]
    simp only [if_pos trivial]
    rw [ih]
    rw [Prod.mk.injEq]
    refine ⟨?_, (Function.iterate_succ_apply tickHues n h).symm⟩
    rw [List.range_succ_eq_map, List.map_cons, List.map_map]
    rw [List.cons.injEq]
    refine ⟨by simp, ?_⟩
    apply List.map_congr_left
    intro j hj
    simp only [Function.comp_apply]
    rw [← Function.iterate_succ_apply]
    have ht : t0 + 1 + j = t0 + (j + 1) := by omega
    rw [ht]

/-- C10.  If the shutdown flag is observed `true` for `k` ticks and then
clear, the loop transmits one frame per running tick and exits; exactly one
further frame is transmitted after the clear observation, assembled from the
current hue state with the dimming factor forced to `0`, and it is the last
transmission of the program. -/
theorem mainProgram_shutdown (gt : GammaTable) (dims : ℕ → ℚ)
    (k : ℕ) (rest : List Bool) (h : List ℚ) :
    mainProgram gt dims (List.replicate k true ++ false :: rest) h
      = ((List.range k).map
           (fun j => hue_to_pixels (tickHues^[j + 1] h) gt (dims j)))
          ++ [hue_to_pixels (tickHues^[k] h) gt 0] := by
  rw [mainProgram]
  rw [mainLoop_replicate]
  simp

end LedStrip
